import Mathlib

/-!
Verification of the codemium concurrent multi-repository processing engine
against its natural-language specification.

The development shallowly embeds three parts of the source:

* internal/history/history.go — target-date generation and the historical
  commit resolver (GenerateDates, generateMonthly, generateWeekly,
  FindCommits);
* internal/provider/ratelimit.go — the resilient HTTP transport's retry
  and backoff loop (RoundTrip, the Retry-After handling);
* the bounded concurrent task runner RunTrends from
  docs/plans/2026-02-19-trends-implementation.md (internal/worker/pool.go),
  modelled as a small-step interleaving semantics.

Go instants (time.Time in UTC) are embedded as absolute seconds since the
Unix epoch (Int); Go machine integers that stay small are embedded as
Nat/Int directly.
-/

set_option maxRecDepth 4000

namespace Codemium

namespace History

/-- Leap-year test of the proleptic Gregorian calendar, as used by Go's
time package. -/
def isLeap (y : Int) : Bool := y % 4 == 0 && (y % 100 != 0 || y % 400 == 0)

/-- Number of days of month m (1..12) in year y, as computed by Go's
time package. -/
def daysInMonth (y : Int) (m : Nat) : Nat :=
  if m = 2 then (if isLeap y then 29 else 28)
  else if m = 4 ∨ m = 6 ∨ m = 9 ∨ m = 11 then 30
  else 31

/-- Days since the Unix epoch 1970-01-01 of the civil date y-m-d in the
proleptic Gregorian calendar (the days-from-civil computation that Go's
time package performs through its absolute-date representation). -/
def toDays (y : Int) (m : Nat) (d : Nat) : Int :=
  let y2 : Int := if m ≤ 2 then y - 1 else y
  let era : Int := (if 0 ≤ y2 then y2 else y2 - 399) / 400
  let yoe : Int := y2 - era * 400
  let mp : Int := ((m : Int) + 9) % 12
  let doy : Int := (153 * mp + 2) / 5 + (d : Int) - 1
  let doe : Int := yoe * 365 + yoe / 4 - yoe / 100 + doy
  era * 146097 + doe - 719468

/-- Civil date (year, month, day) of a day count since the Unix epoch
(the civil-from-days computation of Go's time package). -/
def fromDays (z0 : Int) : Int × Nat × Nat :=
  let z : Int := z0 + 719468
  let era : Int := (if 0 ≤ z then z else z - 146096) / 146097
  let doe : Int := z - era * 146097
  let yoe : Int := (doe - doe / 1460 + doe / 36524 - doe / 146096) / 365
  let y : Int := yoe + era * 400
  let doy : Int := doe - (365 * yoe + yoe / 4 - yoe / 100)
  let mp : Int := (5 * doy + 2) / 153
  let d : Int := doy - (153 * mp + 2) / 5 + 1
  let m : Int := if mp < 10 then mp + 3 else mp - 9
  (if m ≤ 2 then y + 1 else y, m.toNat, d.toNat)

/-- Go's time.Date(y, m, d, hh, mm, ss, 0, time.UTC), embedded as absolute
seconds since the Unix epoch. -/
def mkTime (y : Int) (m : Nat) (d : Nat) (hh mm ss : Nat) : Int :=
  toDays y m d * 86400 + (hh : Int) * 3600 + (mm : Int) * 60 + (ss : Int)

/-- End of the civil day of instant t:
time.Date(cur.Year(), cur.Month(), cur.Day(), 23, 59, 59, 0, time.UTC)
on line 63 of history.go. -/
def endOfDay (t : Int) : Int :=
  let c := fromDays (t / 86400)
  mkTime c.1 c.2.1 c.2.2 23 59 59

/-- A year-month pair: the state of the monthly generation loop in
generateMonthly (the loop variable cur is always the first day of a month
at midnight UTC, so only year and month vary). -/
structure YearMonth where
  year : Int
  month : Nat
deriving DecidableEq, Repr

/-- Linear index of a month, used to express Go's cur.After(end) comparison
of two first-of-month midnights: for months in 1..12 the instant order of
the first-of-month midnights is exactly the order of this index. -/
def monthIndex (ym : YearMonth) : Int := 12 * ym.year + ((ym.month : Int) - 1)

/-- Go's cur.AddDate(0, 1, 0) on a first-of-month date: the first day of
the following month. -/
def nextMonth (ym : YearMonth) : YearMonth :=
  if ym.month = 12 then ⟨ym.year + 1, 1⟩ else ⟨ym.year, ym.month + 1⟩

/-- Go's nextMonth.AddDate(0, 0, -1) on a first-of-month date (line 44 of
history.go): the last day of the preceding month, by Go's date
normalization of (y, m, 0). -/
def prevDayOfFirst (y : Int) (m : Nat) : Int × Nat × Nat :=
  if m = 1 then (y - 1, 12, 31) else (y, m - 1, daysInMonth y (m - 1))

/-- Lines 43-45 of history.go: the end-of-month instant of the month cur,
computed as first-day-of-next-month minus one day, at 23:59:59 UTC. -/
def endOfMonth (cur : YearMonth) : Int :=
  let nm := nextMonth cur
  let last := prevDayOfFirst nm.year nm.month
  mkTime last.1 last.2.1 last.2.2 23 59 59

theorem monthIndex_nextMonth (ym : YearMonth) :
    monthIndex (nextMonth ym) = monthIndex ym + 1 := by
  unfold nextMonth monthIndex
  by_cases h : ym.month = 12 <;> simp [h] <;> omega

/-- The loop of generateMonthly (lines 40-47 of history.go): emit the
end-of-month of every month from cur while cur is not after the end
month.  The guard embeds !cur.After(end) on first-of-month midnights as
the month-index order. -/
def generateMonthlyFrom (cur fin : YearMonth) : List Int :=
  if _h : monthIndex cur ≤ monthIndex fin then
    endOfMonth cur :: generateMonthlyFrom (nextMonth cur) fin
  else []
termination_by (monthIndex fin + 1 - monthIndex cur).toNat
decreasing_by
  rw [monthIndex_nextMonth]; omega

/-- The loop of generateWeekly (lines 62-65 of history.go): cur starts at
the since-day midnight, steps by cur.AddDate(0, 0, 7) (in UTC this is
exactly +604800 seconds), and emits the 23:59:59 instant of cur's civil
day while cur is not after the until-day midnight. -/
def generateWeeklyFrom (cur fin : Int) : List Int :=
  if _h : cur ≤ fin then
    endOfDay cur :: generateWeeklyFrom (cur + 604800) fin
  else []
termination_by (fin + 1 - cur).toNat
decreasing_by omega

/-- Decimal digit value of a character, as Go's time parsing reads it. -/
def digit (c : Char) : Option Nat :=
  if '0' ≤ c ∧ c ≤ '9' then some (c.toNat - '0'.toNat) else none

/-- Two fixed decimal digits. -/
def num2 (a b : Char) : Option Nat := do
  let x ← digit a
  let y ← digit b
  pure (10 * x + y)

/-- Four fixed decimal digits. -/
def num4 (a b c d : Char) : Option Nat := do
  let x ← digit a
  let y ← digit b
  let z ← digit c
  let w ← digit d
  pure (1000 * x + 100 * y + 10 * z + w)

/-- Go's time.Parse("2006-01", s): a 4-digit year, a dash, and a 2-digit
month in 1..12; anything else is a parse error. -/
def parseYearMonth (s : String) : Option YearMonth :=
  match s.toList with
  | [y1, y2, y3, y4, dash, m1, m2] =>
    if dash = '-' then
      match num4 y1 y2 y3 y4, num2 m1 m2 with
      | some y, some m => if 1 ≤ m ∧ m ≤ 12 then some ⟨(y : Int), m⟩ else none
      | _, _ => none
    else none
  | _ => none

/-- Go's time.Parse("2006-01-02", s): a 4-digit year, a 2-digit month in
1..12 and a 2-digit day valid for that month, dash-separated. -/
def parseDate (s : String) : Option (Int × Nat × Nat) :=
  match s.toList with
  | [y1, y2, y3, y4, dash1, m1, m2, dash2, d1, d2] =>
    if dash1 = '-' ∧ dash2 = '-' then
      match num4 y1 y2 y3 y4, num2 m1 m2, num2 d1 d2 with
      | some y, some m, some d =>
        if 1 ≤ m ∧ m ≤ 12 ∧ 1 ≤ d ∧ d ≤ daysInMonth (y : Int) m then
          some ((y : Int), m, d)
        else none
      | _, _, _ => none
    else none
  | _ => none

/-- generateMonthly (lines 29-49 of history.go): parse both year-months
(returning nil on error) and run the month loop. -/
def generateMonthly (since untl : String) : List Int :=
  match parseYearMonth since with
  | none => []
  | some s =>
    match parseYearMonth untl with
    | none => []
    | some u => generateMonthlyFrom s u

/-- generateWeekly (lines 51-67 of history.go): parse both days
(returning nil on error) and run the 7-day loop from the since-day
midnight. -/
def generateWeekly (since untl : String) : List Int :=
  match parseDate since with
  | none => []
  | some s =>
    match parseDate untl with
    | none => []
    | some u =>
      generateWeeklyFrom (mkTime s.1 s.2.1 s.2.2 0 0 0) (mkTime u.1 u.2.1 u.2.2 0 0 0)

/-- GenerateDates (lines 18-27 of history.go). -/
def GenerateDates (since untl interval : String) : List Int :=
  match interval with
  | "monthly" => generateMonthly since untl
  | "weekly" => generateWeekly since untl
  | _ => []

/-- A commit reference: hash and author timestamp (commit.Author.When),
the two fields FindCommits reads. -/
structure Commit where
  hash : String
  authorWhen : Int
deriving DecidableEq, Repr

/-- The inner loop of FindCommits (lines 117-122 of history.go): walk the
collected commit list in order and return the hash of the first commit
whose author timestamp is not after the target. -/
def findFirstAtOrBefore (commits : List Commit) (target : Int) : Option String :=
  match commits with
  | [] => none
  | c :: rest =>
    if c.authorWhen ≤ target then some c.hash else findFirstAtOrBefore rest target

/-- Body of the outer loop of FindCommits (lines 112-123 of history.go):
when the inner scan finds a commit for the target date, insert it into the
result map (embedded as a lookup function); otherwise leave the map
unchanged, so the date is entirely absent. -/
def insertDate (commits : List Commit) (result : Int → Option String) (target : Int) :
    Int → Option String :=
  match findFirstAtOrBefore commits target with
  | some h => fun t => if t = target then some h else result t
  | none => result

/-- FindCommits (lines 111-125 of history.go): fold the insertion step over
the target dates, starting from the empty map. -/
def FindCommits (commits : List Commit) (dates : List Int) : Int → Option String :=
  dates.foldl (insertDate commits) (fun _ => none)

/-! ### Lemmas about the historical commit resolver -/

theorem findFirst_eq_none_iff (commits : List Commit) (t : Int) :
    findFirstAtOrBefore commits t = none ↔ ∀ c ∈ commits, t < c.authorWhen := by
  induction commits with
  | nil => simp [findFirstAtOrBefore]
  | cons c rest ih =>
    by_cases h : c.authorWhen ≤ t
    · simp only [findFirstAtOrBefore, if_pos h]
      constructor
      · intro hc; exact Option.noConfusion hc
      · intro hall; exact absurd (hall c (by simp)) (by omega)
    · simp only [findFirstAtOrBefore, if_neg h, ih]
      constructor
      · intro hall c' hc'
        rcases List.mem_cons.mp hc' with rfl | hm
        · omega
        · exact hall c' hm
      · intro hall c' hc'
        exact hall c' (List.mem_cons_of_mem _ hc')

theorem findFirst_first_match (t : Int) (pre : List Commit) (c : Commit) (post : List Commit)
    (hc : c.authorWhen ≤ t) (hpre : ∀ e ∈ pre, t < e.authorWhen) :
    findFirstAtOrBefore (pre ++ c :: post) t = some c.hash := by
  induction pre with
  | nil => simp [findFirstAtOrBefore, hc]
  | cons p rest ih =>
    have hp : t < p.authorWhen := hpre p (by simp)
    simp only [List.cons_append, findFirstAtOrBefore]
    rw [if_neg (by omega)]
    exact ih (fun e he => hpre e (by simp [he]))

theorem findCommits_foldl_none (commits : List Commit) (t : Int)
    (hnone : findFirstAtOrBefore commits t = none) (dates : List Int) :
    ∀ m : Int → Option String, (dates.foldl (insertDate commits) m) t = m t := by
  induction dates with
  | nil => intro m; rfl
  | cons d ds ih =>
    intro m
    rw [List.foldl_cons, ih]
    unfold insertDate
    cases hf : findFirstAtOrBefore commits d with
    | none => rfl
    | some h =>
      by_cases htd : t = d
      · exfalso; rw [htd, hf] at hnone; exact Option.noConfusion hnone
      · simp [htd]

theorem findCommits_foldl_some (commits : List Commit) (t : Int) (h : String)
    (hsome : findFirstAtOrBefore commits t = some h) (dates : List Int) :
    ∀ m : Int → Option String, (m t = some h ∨ t ∈ dates) →
      (dates.foldl (insertDate commits) m) t = some h := by
  induction dates with
  | nil =>
    intro m hm
    rcases hm with hm | hm
    · exact hm
    · simp at hm
  | cons d ds ih =>
    intro m hm
    rw [List.foldl_cons]
    apply ih
    unfold insertDate
    cases hf : findFirstAtOrBefore commits d with
    | none =>
      rcases hm with hm | hm
      · exact Or.inl hm
      · rcases List.mem_cons.mp hm with rfl | hmem
        · rw [hsome] at hf; exact Option.noConfusion hf
        · exact Or.inr hmem
    | some h2 =>
      by_cases htd : t = d
      · subst htd
        rw [hsome] at hf
        injection hf with hh
        subst hh
        left; simp
      · rcases hm with hm | hm
        · left; simp [htd, hm]
        · rcases List.mem_cons.mp hm with rfl | hmem
          · exact absurd rfl htd
          · exact Or.inr hmem

theorem findCommits_eq_findFirst (commits : List Commit) (dates : List Int) (t : Int)
    (ht : t ∈ dates) :
    FindCommits commits dates t = findFirstAtOrBefore commits t := by
  unfold FindCommits
  cases hf : findFirstAtOrBefore commits t with
  | none => exact findCommits_foldl_none commits t hf dates _
  | some h => exact findCommits_foldl_some commits t h hf dates _ (Or.inr ht)

/-- C1: for every commit log (in the given order) and every requested
target instant, the FindCommits result map contains the instant iff some
commit's author timestamp is at or before it — otherwise the instant is
entirely absent, never mapped to a sentinel — and, when present, the
instant maps to the hash of the first commit encountered in the given
order whose author timestamp is not after the instant. -/
theorem findCommits_claim (commits : List Commit) (dates : List Int) (t : Int)
    (ht : t ∈ dates) :
    ((∃ h, FindCommits commits dates t = some h) ↔ ∃ c ∈ commits, c.authorWhen ≤ t)
    ∧ (∀ pre c post, commits = pre ++ c :: post → c.authorWhen ≤ t →
        (∀ e ∈ pre, t < e.authorWhen) →
        FindCommits commits dates t = some c.hash) := by
  have heq := findCommits_eq_findFirst commits dates t ht
  constructor
  · rw [heq]
    constructor
    · rintro ⟨h, hh⟩
      by_contra hno
      push_neg at hno
      have hn : findFirstAtOrBefore commits t = none :=
        (findFirst_eq_none_iff commits t).mpr (fun c hc => by have := hno c hc; omega)
      rw [hn] at hh
      exact Option.noConfusion hh
    · rintro ⟨c, hc, hle⟩
      cases hf : findFirstAtOrBefore commits t with
      | some h => exact ⟨h, rfl⟩
      | none =>
        have := (findFirst_eq_none_iff commits t).mp hf c hc
        omega
  · intro pre c post hsplit hcle hpre
    rw [heq, hsplit]
    exact findFirst_first_match t pre c post hcle hpre

/-- Witness for C1 at the spec's commit-resolution-selection scenario: the
newest commit not after the target instant is selected. -/
theorem findCommits_claim_witness :
    FindCommits [⟨"a", 100⟩, ⟨"b", 50⟩] [60, 10] 60 = some "b" :=
  (findCommits_claim [⟨"a", 100⟩, ⟨"b", 50⟩] [60, 10] 60 (by decide)).2
    [⟨"a", 100⟩] ⟨"b", 50⟩ [] rfl (by decide) (by decide)

/-! ### Lemmas about monthly target generation -/

/-- Iterated nextMonth: the month i steps after ym. -/
def addMonths (ym : YearMonth) : Nat → YearMonth
  | 0 => ym
  | n + 1 => addMonths (nextMonth ym) n

theorem monthIndex_addMonths (ym : YearMonth) (n : Nat) :
    monthIndex (addMonths ym n) = monthIndex ym + n := by
  induction n generalizing ym with
  | zero => simp [addMonths]
  | succ n ih =>
    rw [addMonths, ih, monthIndex_nextMonth]
    omega

/-- A month field in the calendar range 1..12, as the parser guarantees. -/
def validMonth (ym : YearMonth) : Prop := 1 ≤ ym.month ∧ ym.month ≤ 12

theorem genMonthly_shape (s u : YearMonth) (h : monthIndex s ≤ monthIndex u) :
    generateMonthlyFrom s u =
      (List.range ((monthIndex u - monthIndex s).toNat + 1)).map
        (fun i => endOfMonth (addMonths s i)) := by
  rw [generateMonthlyFrom, dif_pos h]
  by_cases h2 : monthIndex (nextMonth s) ≤ monthIndex u
  · have hrec := genMonthly_shape (nextMonth s) u h2
    rw [hrec]
    rw [monthIndex_nextMonth] at h2 ⊢
    have hk : (monthIndex u - monthIndex s).toNat + 1
        = ((monthIndex u - (monthIndex s + 1)).toNat + 1) + 1 := by omega
    conv_rhs => rw [hk, List.range_succ_eq_map, List.map_cons, List.map_map]
    rfl
  · have hu : monthIndex u = monthIndex s := by
      rw [monthIndex_nextMonth] at h2; omega
    rw [generateMonthlyFrom, dif_neg (by rw [monthIndex_nextMonth]; omega)]
    rw [hu]
    simp [List.range_succ, addMonths]
termination_by (monthIndex u + 1 - monthIndex s).toNat
decreasing_by rw [monthIndex_nextMonth]; omega

theorem endOfMonth_lastDay (ym : YearMonth) (h : validMonth ym) :
    endOfMonth ym = mkTime ym.year ym.month (daysInMonth ym.year ym.month) 23 59 59 := by
  obtain ⟨h1, h2⟩ := h
  by_cases h12 : ym.month = 12
  · simp [endOfMonth, nextMonth, prevDayOfFirst, h12, daysInMonth]
  · have hne : ym.month + 1 ≠ 1 := by omega
    simp [endOfMonth, nextMonth, prevDayOfFirst, h12, hne]

/-- C7: monthly target generation emits exactly one instant per month from
since to until inclusive (the i-th emitted instant is the end of the i-th
month after since, and month indices advance by exactly one per step);
every emitted instant is the last calendar day of its month at
23:59:59 UTC, computed correctly across 28/29/30/31-day months and year
boundaries via daysInMonth; and the spec's concrete example holds. -/
theorem generateMonthly_claim :
    (∀ s u : YearMonth, monthIndex s ≤ monthIndex u →
      generateMonthlyFrom s u =
        (List.range ((monthIndex u - monthIndex s).toNat + 1)).map
          (fun i => endOfMonth (addMonths s i)))
    ∧ (∀ ym : YearMonth, validMonth ym →
        endOfMonth ym = mkTime ym.year ym.month (daysInMonth ym.year ym.month) 23 59 59)
    ∧ (∀ ym : YearMonth, ∀ i : Nat, monthIndex (addMonths ym i) = monthIndex ym + i)
    ∧ GenerateDates "2025-01" "2025-03" "monthly" =
        [mkTime 2025 1 31 23 59 59, mkTime 2025 2 28 23 59 59,
         mkTime 2025 3 31 23 59 59] := by
  refine ⟨genMonthly_shape, endOfMonth_lastDay, monthIndex_addMonths, ?_⟩
  have hpar : GenerateDates "2025-01" "2025-03" "monthly"
      = generateMonthlyFrom ⟨2025, 1⟩ ⟨2025, 3⟩ := rfl
  rw [hpar, genMonthly_shape ⟨2025, 1⟩ ⟨2025, 3⟩ (by decide)]
  decide

/-- Witness for C7: a concrete month (February 2025, a 28-day case) whose
generated instant is its last calendar day at 23:59:59 UTC. -/
theorem generateMonthly_claim_witness :
    endOfMonth ⟨2025, 2⟩ = mkTime 2025 2 28 23 59 59 :=
  generateMonthly_claim.2.1 ⟨2025, 2⟩ ⟨by decide, by decide⟩

/-! ### Lemmas about weekly target generation -/

theorem genWeekly_shape (s e : Int) (h : s ≤ e) :
    ∃ n : Nat,
      generateWeeklyFrom s e =
        (List.range (n + 1)).map (fun i : Nat => endOfDay (s + 604800 * (i : Int)))
      ∧ (∀ i : Nat, i ≤ n → s + 604800 * (i : Int) ≤ e)
      ∧ e < s + 604800 * ((n : Int) + 1) := by
  rw [generateWeeklyFrom, dif_pos h]
  by_cases h2 : s + 604800 ≤ e
  · obtain ⟨n, hlist, hbound, hupper⟩ := genWeekly_shape (s + 604800) e h2
    refine ⟨n + 1, ?_, ?_, ?_⟩
    · rw [hlist]
      conv_rhs => rw [List.range_succ_eq_map, List.map_cons, List.map_map]
      simp only [List.cons.injEq]
      constructor
      · norm_num
      · apply List.map_congr_left
        intro i _
        simp only [Function.comp]
        congr 1
        push_cast
        ring
    · intro i hi
      cases i with
      | zero => simpa using h
      | succ j =>
        have hb := hbound j (by omega)
        push_cast at hb ⊢
        omega
    · push_cast at hupper ⊢
      omega
  · refine ⟨0, ?_, ?_, ?_⟩
    · rw [generateWeeklyFrom, dif_neg (by omega)]
      simp [List.range_succ]
    · intro i hi
      have hi0 : i = 0 := Nat.le_zero.mp hi
      subst hi0
      simpa using h
    · push_cast
      omega
termination_by (e + 1 - s).toNat
decreasing_by omega

/-- C9: weekly target generation yields the 23:59:59 UTC instant of every
7th day starting at since (the i-th element is the end of the day
7 times i days after since), continuing while the day does not exceed
until; plus the spec's concrete example. -/
theorem generateWeekly_claim :
    (∀ s e : Int, s ≤ e → ∃ n : Nat,
      generateWeeklyFrom s e =
        (List.range (n + 1)).map (fun i : Nat => endOfDay (s + 604800 * (i : Int)))
      ∧ (∀ i : Nat, i ≤ n → s + 604800 * (i : Int) ≤ e)
      ∧ e < s + 604800 * ((n : Int) + 1))
    ∧ (∀ t : Int, endOfDay t % 86400 = 86399)
    ∧ GenerateDates "2025-01-01" "2025-01-22" "weekly" =
        [mkTime 2025 1 1 23 59 59, mkTime 2025 1 8 23 59 59,
         mkTime 2025 1 15 23 59 59, mkTime 2025 1 22 23 59 59] := by
  refine ⟨genWeekly_shape, ?_, ?_⟩
  · intro t
    simp only [endOfDay, mkTime]
    omega
  · have hpar : GenerateDates "2025-01-01" "2025-01-22" "weekly"
        = generateWeeklyFrom 1735689600 1737504000 := rfl
    obtain ⟨n, hlist, hbound, hupper⟩ :=
      genWeekly_shape 1735689600 1737504000 (by norm_num)
    have hb := hbound n (Nat.le_refl n)
    have hn : n = 3 := by push_cast at hb hupper; omega
    subst hn
    rw [hpar, hlist]
    decide

/-- Witness for C9: the shape statement applied at the spec's concrete
since and until with its hypothesis discharged, evaluated at the first
emitted instant. -/
theorem generateWeekly_claim_witness :
    endOfDay 1735689600 % 86400 = 86399 :=
  generateWeekly_claim.2.1 1735689600

end History

namespace RateLimit

/-- Maximum number of retries of a rate-limited response
(const defaultMaxRetries, line 11 of ratelimit.go). -/
def defaultMaxRetries : Nat := 5

/-- An HTTP response as the retry loop inspects it: the status code and
the parsed Retry-After header (none when the header is absent or fails
the strconv.Atoi parse on line 76). -/
structure Response where
  status : Nat
  retryAfter : Option Int
deriving DecidableEq, Repr

/-- Lines 73-79 of ratelimit.go: the delay, in seconds, waited before the
retry that follows attempt number attempt.  The default is the exponential
(1 << attempt) seconds; a Retry-After value that parsed and is positive
replaces it outright. -/
def backoffDelay (attempt : Nat) (retryAfter : Option Int) : Int :=
  let delay : Int := 2 ^ attempt
  match retryAfter with
  | some secs => if 0 < secs then secs else delay
  | none => delay

/-- The retry loop of RoundTrip (lines 50-87 of ratelimit.go), embedded
over an abstract base transport mapping each attempt number to either a
transport error (none, returned immediately) or a response.  The waits
(pacing and backoff) do not affect which value is returned, so the loop is
embedded without them; backoffDelay above embeds the delay computation.
Returns the outcome together with the total number of attempts made. -/
def roundTripFrom (base : Nat → Option Response) (attempt : Nat) :
    Option Response × Nat :=
  match base attempt with
  | none => (none, attempt + 1)
  | some resp =>
    if _h : resp.status ≠ 429 ∨ defaultMaxRetries ≤ attempt then (some resp, attempt + 1)
    else roundTripFrom base (attempt + 1)
termination_by defaultMaxRetries + 1 - attempt
decreasing_by
  push_neg at _h
  obtain ⟨_h1, h2⟩ := _h
  simp only [defaultMaxRetries] at h2 ⊢
  omega

/-- RoundTrip (line 47 of ratelimit.go): the loop starts at attempt 0. -/
def RoundTrip (base : Nat → Option Response) : Option Response × Nat :=
  roundTripFrom base 0

/-- C2 counterexample: after attempt 0, with a server-specified delay of
30 seconds, the code waits 30 seconds, not min(30, 2^0) = 1 second. -/
theorem backoffDelay_min_counterexample :
    backoffDelay 0 (some 30) = 30 ∧ ¬ backoffDelay 0 (some 30) = min 30 (2 ^ 0) := by
  decide

/-- C2 (amended): a positive server-specified Retry-After delay replaces
the exponential default outright (taking precedence, not capped by min);
without one the delay is 2^attempt seconds, giving the schedule
1s, 2s, 4s, 8s, 16s over the five retries. -/
theorem backoffDelay_claim :
    (∀ (n : Nat) (s : Int), 0 < s → backoffDelay n (some s) = s)
    ∧ (∀ n : Nat, backoffDelay n none = 2 ^ n)
    ∧ (List.range defaultMaxRetries).map (fun n => backoffDelay n none)
        = [1, 2, 4, 8, 16] := by
  refine ⟨?_, ?_, ?_⟩
  · intro n s hs
    simp [backoffDelay, hs]
  · intro n
    rfl
  · decide

/-- Witness for the amended C2 at attempt 3 with Retry-After 100. -/
theorem backoffDelay_claim_witness :
    backoffDelay 3 (some 100) = 100 :=
  backoffDelay_claim.1 3 100 (by decide)

theorem roundTripFrom_none (base : Nat → Option Response) (a : Nat)
    (hb : base a = none) :
    roundTripFrom base a = (none, a + 1) := by
  rw [roundTripFrom, hb]

theorem roundTripFrom_some (base : Nat → Option Response) (a : Nat) (r : Response)
    (hb : base a = some r) :
    roundTripFrom base a =
      if _h : r.status ≠ 429 ∨ defaultMaxRetries ≤ a then (some r, a + 1)
      else roundTripFrom base (a + 1) := by
  rw [roundTripFrom, hb]

theorem roundTripFrom_le (k : Nat) :
    ∀ (a : Nat) (base : Nat → Option Response), a + k = defaultMaxRetries →
      (roundTripFrom base a).2 ≤ defaultMaxRetries + 1 := by
  induction k with
  | zero =>
    intro a base ha
    cases hb : base a with
    | none =>
      rw [roundTripFrom_none base a hb]
      simp only [defaultMaxRetries] at ha ⊢
      omega
    | some r =>
      rw [roundTripFrom_some base a r hb, dif_pos (Or.inr (by omega))]
      simp only [defaultMaxRetries] at ha ⊢
      omega
  | succ k ih =>
    intro a base ha
    have ha5 : a + 1 + k = defaultMaxRetries := by omega
    cases hb : base a with
    | none =>
      rw [roundTripFrom_none base a hb]
      simp only [defaultMaxRetries] at ha ⊢
      omega
    | some r =>
      by_cases hc : r.status ≠ 429 ∨ defaultMaxRetries ≤ a
      · rw [roundTripFrom_some base a r hb, dif_pos hc]
        simp only [defaultMaxRetries] at ha ⊢
        omega
      · rw [roundTripFrom_some base a r hb, dif_neg hc]
        exact ih (a + 1) base ha5

theorem roundTripFrom_exhaust (resp : Nat → Response)
    (hs : ∀ i, (resp i).status = 429) :
    ∀ (k a : Nat), a + k = defaultMaxRetries →
      ∀ base : Nat → Option Response, (∀ i, base i = some (resp i)) →
      roundTripFrom base a = (some (resp defaultMaxRetries), defaultMaxRetries + 1) := by
  intro k
  induction k with
  | zero =>
    intro a ha base hbase
    have ha5 : a = defaultMaxRetries := by omega
    subst ha5
    rw [roundTripFrom_some base defaultMaxRetries (resp defaultMaxRetries)
      (hbase defaultMaxRetries), dif_pos (Or.inr (Nat.le_refl _))]
  | succ k ih =>
    intro a ha base hbase
    have hneg : ¬((resp a).status ≠ 429 ∨ defaultMaxRetries ≤ a) := by
      push_neg
      exact ⟨hs a, by simp only [defaultMaxRetries] at ha ⊢; omega⟩
    rw [roundTripFrom_some base a (resp a) (hbase a), dif_neg hneg]
    exact ih (a + 1) (by omega) base hbase

theorem roundTripFrom_scenario (base : Nat → Option Response) (r0 r1 r2 : Response)
    (h0 : base 0 = some r0) (h0s : r0.status = 429)
    (h1 : base 1 = some r1) (h1s : r1.status = 429)
    (h2 : base 2 = some r2) (h2s : r2.status ≠ 429) :
    roundTripFrom base 0 = (some r2, 3) := by
  rw [roundTripFrom_some base 0 r0 h0, dif_neg (by simp [h0s, defaultMaxRetries])]
  rw [roundTripFrom_some base 1 r1 h1, dif_neg (by simp [h1s, defaultMaxRetries])]
  rw [roundTripFrom_some base 2 r2 h2, dif_pos (Or.inl h2s)]

/-- C5: a rate-limited response is retried at most 5 times, so at most 6
attempts in total; when every attempt is rate-limited the last response is
returned to the caller as a normal response, not a distinct error; and an
endpoint rate-limited for exactly the first 2 attempts yields the success
response after exactly 3 total attempts. -/
theorem roundTrip_claim :
    (∀ base : Nat → Option Response, (RoundTrip base).2 ≤ 6)
    ∧ (∀ (base : Nat → Option Response) (resp : Nat → Response),
        (∀ i, base i = some (resp i)) → (∀ i, (resp i).status = 429) →
        RoundTrip base = (some (resp 5), 6))
    ∧ (∀ (base : Nat → Option Response) (r0 r1 r2 : Response),
        base 0 = some r0 → r0.status = 429 →
        base 1 = some r1 → r1.status = 429 →
        base 2 = some r2 → r2.status ≠ 429 →
        RoundTrip base = (some r2, 3)) := by
  refine ⟨?_, ?_, ?_⟩
  · intro base
    exact roundTripFrom_le 5 0 base rfl
  · intro base resp hbase hs
    exact roundTripFrom_exhaust resp hs 5 0 rfl base hbase
  · intro base r0 r1 r2 h0 h0s h1 h1s h2 h2s
    exact roundTripFrom_scenario base r0 r1 r2 h0 h0s h1 h1s h2 h2s

/-- Witness for C5 at a concrete endpoint that is rate-limited on the
first two attempts and then succeeds. -/
theorem roundTrip_claim_witness :
    RoundTrip (fun i => if i < 2 then some ⟨429, some 1⟩ else some ⟨200, none⟩)
      = (some ⟨200, none⟩, 3) :=
  roundTrip_claim.2.2 _ ⟨429, some 1⟩ ⟨429, some 1⟩ ⟨200, none⟩
    rfl rfl rfl rfl rfl (by decide)

end RateLimit

namespace Worker

/-- Phase of one dispatched goroutine of RunTrends (plan doc lines
1138-1152).  The goroutine body runs process(ctx, r); then, in one
mutex-protected critical section, appends its TrendsResult and increments
the completed counter, reading the incremented value c; then (after the
unlock) calls onProgress with c; then its deferred functions run in LIFO
order: first the gate-slot release (the receive from sem), then
wg.Done(). -/
inductive Phase where
  | running
  | appended (c : Nat)
  | notified
  | released
  | done
deriving DecidableEq, Repr

/-- One dispatched task: its repository and its phase. -/
structure TaskState (Repo : Type) where
  repo : Repo
  phase : Phase

/-- Position of the dispatching goroutine of RunTrends (plan doc lines
1128-1154): at the head of the for loop (about to test ctx.Err());
past the cancellation check for the head of pending; holding a gate slot
for it (the send on sem has succeeded, the worker goroutine has not yet
been started); at wg.Wait(); returned. -/
inductive RunnerPC where
  | loopHead
  | passedCheck
  | slotHeld
  | waiting
  | returned
deriving DecidableEq, Repr

/-- The shared state of a RunTrends execution: the repositories not yet
dispatched, the dispatched tasks, the mutex-protected accumulators
(results, completed), the free capacity of the admission gate sem, the
cancellation flag of the context, the dispatching goroutine's position,
the sequence of ProgressEvent observations made by the sink, and the
constant len(repos). -/
structure RState (Repo α : Type) where
  pending : List Repo
  tasks : List (TaskState Repo)
  results : List (Repo × α)
  completed : Nat
  semAvail : Nat
  canceled : Bool
  pc : RunnerPC
  obs : List (Nat × Nat × Repo)
  total : Nat

variable {Repo α : Type}

/-- Lines 1116-1118 of the plan doc: a concurrency argument below 1 is
coerced to 1; the admission gate sem is created with this capacity. -/
def effConcurrency (c : Int) : Nat := if c < 1 then 1 else c.toNat

/-- The state in which RunTrends(ctx, repos, c, process, onProgress)
starts executing. -/
def initState (repos : List Repo) (c : Int) : RState Repo α :=
  { pending := repos, tasks := [], results := [], completed := 0,
    semAvail := effConcurrency c, canceled := false, pc := .loopHead,
    obs := [], total := repos.length }

/-- System steps of the RunTrends execution model: arbitrary
interleavings of the dispatching loop (plan doc lines 1128-1139), the
worker goroutine bodies (lines 1138-1152) and wg.Wait (line 1154).  The
mutex-protected append-and-count critical section is a single atomic
step, which is exactly the atomicity the mutex provides; the onProgress
call happens after the unlock, as in the code; the deferred slot release
precedes the deferred wg.Done (LIFO defers). -/
inductive Step (f : Repo → α) : RState Repo α → RState Repo α → Prop where
  | loopExit (s : RState Repo α)
      (hpc : s.pc = .loopHead) (hp : s.pending = []) :
      Step f s { s with pc := .waiting }
  | checkOk (s : RState Repo α) (r : Repo) (rest : List Repo)
      (hpc : s.pc = .loopHead) (hp : s.pending = r :: rest)
      (hc : s.canceled = false) :
      Step f s { s with pc := .passedCheck }
  | checkCancel (s : RState Repo α) (r : Repo) (rest : List Repo)
      (hpc : s.pc = .loopHead) (hp : s.pending = r :: rest)
      (hc : s.canceled = true) :
      Step f s { s with pc := .waiting }
  | acquire (s : RState Repo α)
      (hpc : s.pc = .passedCheck) (hs : 0 < s.semAvail) :
      Step f s { s with semAvail := s.semAvail - 1, pc := .slotHeld }
  | spawn (s : RState Repo α) (r : Repo) (rest : List Repo)
      (hpc : s.pc = .slotHeld) (hp : s.pending = r :: rest) :
      Step f s { s with pending := rest,
                        tasks := s.tasks ++ [⟨r, .running⟩],
                        pc := .loopHead }
  | join (s : RState Repo α)
      (hpc : s.pc = .waiting) (hall : ∀ t ∈ s.tasks, t.phase = .done) :
      Step f s { s with pc := .returned }
  | taskAppend (s : RState Repo α) (l : List (TaskState Repo)) (t : TaskState Repo)
      (r : List (TaskState Repo))
      (ht : s.tasks = l ++ t :: r) (hph : t.phase = .running) :
      Step f s { s with
        tasks := l ++ { t with phase := .appended (s.completed + 1) } :: r,
        results := s.results ++ [(t.repo, f t.repo)],
        completed := s.completed + 1 }
  | taskNotify (s : RState Repo α) (l : List (TaskState Repo)) (t : TaskState Repo)
      (r : List (TaskState Repo)) (c : Nat)
      (ht : s.tasks = l ++ t :: r) (hph : t.phase = .appended c) :
      Step f s { s with
        tasks := l ++ { t with phase := .notified } :: r,
        obs := s.obs ++ [(c, s.total, t.repo)] }
  | taskRelease (s : RState Repo α) (l : List (TaskState Repo)) (t : TaskState Repo)
      (r : List (TaskState Repo))
      (ht : s.tasks = l ++ t :: r) (hph : t.phase = .notified) :
      Step f s { s with
        tasks := l ++ { t with phase := .released } :: r,
        semAvail := s.semAvail + 1 }
  | taskDone (s : RState Repo α) (l : List (TaskState Repo)) (t : TaskState Repo)
      (r : List (TaskState Repo))
      (ht : s.tasks = l ++ t :: r) (hph : t.phase = .released) :
      Step f s { s with tasks := l ++ { t with phase := .done } :: r }

/-- Cancellation of the context by the environment (SIGINT handler). -/
def setCanceled (s : RState Repo α) : RState Repo α := { s with canceled := true }

/-- One step of the whole system: a system step or an environment
cancellation. -/
def StepAll (f : Repo → α) (s s2 : RState Repo α) : Prop :=
  Step f s s2 ∨ s2 = setCanceled s

/-- Reachability from the start of RunTrends through system and
environment steps. -/
def Reachable (f : Repo → α) (repos : List Repo) (c : Int) (s : RState Repo α) : Prop :=
  Relation.ReflTransGen (StepAll f) (initState repos c) s

/-- A phase that holds an admission-gate slot: from dispatch until the
deferred release. -/
def holdsSlot (p : Phase) : Bool :=
  match p with
  | .running | .appended _ | .notified => true
  | .released | .done => false

/-- Number of dispatched tasks currently holding a gate slot. -/
def countHolders (ts : List (TaskState Repo)) : Nat :=
  (ts.filter (fun t => holdsSlot t.phase)).length

/-- Number of tasks currently inside the per-repository task function. -/
def countRunning (ts : List (TaskState Repo)) : Nat :=
  (ts.filter (fun t => t.phase == Phase.running)).length

/-- Repositories of the tasks currently inside the task function. -/
def runningRepos (ts : List (TaskState Repo)) : List Repo :=
  (ts.filter (fun t => t.phase == Phase.running)).map (fun t => t.repo)

/-- Completed-counter values read by tasks that have not yet called
onProgress. -/
def appendedCounts (ts : List (TaskState Repo)) : List Nat :=
  ts.filterMap (fun t => match t.phase with | .appended c => some c | _ => none)

/-- Gate slots held by the dispatching goroutine itself (between its send
on sem and the goroutine start). -/
def pcSlots (pc : RunnerPC) : Nat := if pc = RunnerPC.slotHeld then 1 else 0

/-- Dispatches that the loop may still perform without re-testing
ctx.Err(): 1 while it is between its cancellation check and the
goroutine start. -/
def pcPipeline (pc : RunnerPC) : Nat :=
  match pc with
  | .passedCheck | .slotHeld => 1
  | _ => 0

/-! ### Counting lemmas -/

theorem countHolders_append (l1 l2 : List (TaskState Repo)) :
    countHolders (l1 ++ l2) = countHolders l1 + countHolders l2 := by
  unfold countHolders
  rw [List.filter_append, List.length_append]

theorem countHolders_cons (t : TaskState Repo) (ts : List (TaskState Repo)) :
    countHolders (t :: ts)
      = (if holdsSlot t.phase then 1 else 0) + countHolders ts := by
  unfold countHolders
  rw [List.filter_cons]
  split <;> simp [Nat.add_comm]

theorem countRunning_append (l1 l2 : List (TaskState Repo)) :
    countRunning (l1 ++ l2) = countRunning l1 + countRunning l2 := by
  unfold countRunning
  rw [List.filter_append, List.length_append]

theorem countRunning_cons (t : TaskState Repo) (ts : List (TaskState Repo)) :
    countRunning (t :: ts)
      = (if t.phase == Phase.running then 1 else 0) + countRunning ts := by
  unfold countRunning
  rw [List.filter_cons]
  split <;> simp [Nat.add_comm]

theorem runningRepos_append (l1 l2 : List (TaskState Repo)) :
    runningRepos (l1 ++ l2) = runningRepos l1 ++ runningRepos l2 := by
  unfold runningRepos
  rw [List.filter_append, List.map_append]

theorem runningRepos_cons (t : TaskState Repo) (ts : List (TaskState Repo)) :
    runningRepos (t :: ts)
      = if t.phase == Phase.running then t.repo :: runningRepos ts
        else runningRepos ts := by
  unfold runningRepos
  rw [List.filter_cons]
  split
  · simp
  · rfl

theorem appendedCounts_append (l1 l2 : List (TaskState Repo)) :
    appendedCounts (l1 ++ l2) = appendedCounts l1 ++ appendedCounts l2 := by
  unfold appendedCounts
  rw [List.filterMap_append]

theorem appendedCounts_cons (t : TaskState Repo) (ts : List (TaskState Repo)) :
    appendedCounts (t :: ts)
      = (match t.phase with | Phase.appended c => [c] | _ => []) ++ appendedCounts ts := by
  unfold appendedCounts
  rw [List.filterMap_cons]
  cases t.phase <;> simp

theorem countRunning_le_countHolders (ts : List (TaskState Repo)) :
    countRunning ts ≤ countHolders ts := by
  induction ts with
  | nil => simp [countRunning, countHolders]
  | cons t ts ih =>
    rw [countRunning_cons, countHolders_cons]
    have hle : (if t.phase == Phase.running then 1 else 0)
        ≤ (if holdsSlot t.phase then 1 else 0) := by
      cases t.phase <;> simp [holdsSlot]
    omega

theorem one_le_effConcurrency (c : Int) : 1 ≤ effConcurrency c := by
  unfold effConcurrency
  split <;> omega

/-! ### The inductive invariant -/

/-- The inductive invariant of the RunTrends model: admission-gate slot
accounting; the dispatch loop consumes the input list in order; the
result accumulator holds exactly one entry per dispatched task that has
left the task function, keyed by repository; the completed counter counts
those entries; the observed progress counts together with the counts read
but not yet reported form exactly 1..completed; a returned runner has
only finished tasks; and a never-canceled runner only stops dispatching
when the input is exhausted. -/
structure Inv (repos : List Repo) (C : Nat) (s : RState Repo α) : Prop where
  sem : s.semAvail + countHolders s.tasks + pcSlots s.pc = C
  pendingNe : (s.pc = .passedCheck ∨ s.pc = .slotHeld) → s.pending ≠ []
  dispatched : s.tasks.map (fun t => t.repo) ++ s.pending = repos
  resultsPerm :
    List.Perm ((s.results.map Prod.fst) ++ runningRepos s.tasks)
      (s.tasks.map (fun t => t.repo))
  completedCount : s.completed + countRunning s.tasks = s.tasks.length
  obsPerm : List.Perm ((s.obs.map (fun o => o.1)) ++ appendedCounts s.tasks)
      (List.range' 1 s.completed)
  returnedDone : s.pc = .returned → ∀ t ∈ s.tasks, t.phase = .done
  noCancelPending : s.canceled = false → (s.pc = .waiting ∨ s.pc = .returned) →
      s.pending = []
  totalEq : s.total = repos.length

theorem inv_init (repos : List Repo) (c : Int) :
    Inv repos (effConcurrency c) (initState repos c : RState Repo α) := by
  refine ⟨?_, ?_, ?_, ?_, ?_, ?_, ?_, ?_, ?_⟩ <;>
    simp [initState, countHolders, pcSlots, runningRepos, countRunning,
      appendedCounts, List.range']

theorem inv_step {repos : List Repo} {C : Nat} {f : Repo → α} {s s2 : RState Repo α}
    (hstep : StepAll f s s2) (hi : Inv repos C s) : Inv repos C s2 := by
  obtain ⟨hsem, hpend, hdisp, hres, hcomp, hobs, hretd, hnocp, htot⟩ := hi
  rcases hstep with hstep | hcan
  · cases hstep with
    | loopExit hpc hp =>
      refine ⟨?_, ?_, hdisp, hres, hcomp, hobs, ?_, ?_, htot⟩ <;> dsimp only
      · rw [hpc] at hsem
        simpa [pcSlots] using hsem
      · intro h; rcases h with h | h <;> simp at h
      · intro h; simp at h
      · intro _ _; exact hp
    | checkOk r rest hpc hp hc =>
      refine ⟨?_, ?_, hdisp, hres, hcomp, hobs, ?_, ?_, htot⟩ <;> dsimp only
      · rw [hpc] at hsem
        simpa [pcSlots] using hsem
      · intro _; rw [hp]; simp
      · intro h; simp at h
      · intro _ h; rcases h with h | h <;> simp at h
    | checkCancel r rest hpc hp hc =>
      refine ⟨?_, ?_, hdisp, hres, hcomp, hobs, ?_, ?_, htot⟩ <;> dsimp only
      · rw [hpc] at hsem
        simpa [pcSlots] using hsem
      · intro h; rcases h with h | h <;> simp at h
      · intro h; simp at h
      · intro hf; rw [hc] at hf; simp at hf
    | acquire hpc hs0 =>
      refine ⟨?_, ?_, hdisp, hres, hcomp, hobs, ?_, ?_, htot⟩ <;> dsimp only
      · rw [hpc] at hsem
        have h1 : pcSlots RunnerPC.passedCheck = 0 := rfl
        have h2 : pcSlots RunnerPC.slotHeld = 1 := rfl
        rw [h1] at hsem
        rw [h2]
        omega
      · intro _; exact hpend (Or.inl hpc)
      · intro h; simp at h
      · intro _ h; rcases h with h | h <;> simp at h
    | spawn r rest hpc hp =>
      refine ⟨?_, ?_, ?_, ?_, ?_, ?_, ?_, ?_, htot⟩ <;> dsimp only
      · rw [hpc] at hsem
        rw [countHolders_append, countHolders_cons]
        simp only [pcSlots, holdsSlot, countHolders, List.filter_nil,
          List.length_nil] at hsem ⊢
        simp at hsem ⊢
        omega
      · intro h; rcases h with h | h <;> simp at h
      · rw [List.map_append]
        simp only [List.map_cons, List.map_nil]
        rw [List.append_assoc, List.singleton_append, ← hp]
        exact hdisp
      · rw [runningRepos_append, runningRepos_cons]
        simp only [beq_self_eq_true, if_true, runningRepos, List.filter_nil,
          List.map_nil, List.map_append]
        rw [← List.append_assoc]
        exact hres.append_right [r]
      · rw [countRunning_append]
        have h1 : countRunning [(⟨r, Phase.running⟩ : TaskState Repo)] = 1 := rfl
        rw [h1, List.length_append, List.length_cons, List.length_nil]
        omega
      · rw [appendedCounts_append, appendedCounts_cons]
        have hnil : appendedCounts ([] : List (TaskState Repo)) = [] := rfl
        rw [hnil]
        show List.Perm
          (List.map (fun o => o.1) s.obs ++ (appendedCounts s.tasks ++ ([] ++ [])))
          (List.range' 1 s.completed)
        rw [List.append_nil, List.append_nil]
        exact hobs
      · intro h; simp at h
      · intro _ h; rcases h with h | h <;> simp at h
    | join hpc hall =>
      refine ⟨?_, ?_, hdisp, hres, hcomp, hobs, ?_, ?_, htot⟩ <;> dsimp only
      · rw [hpc] at hsem
        simpa [pcSlots] using hsem
      · intro h; rcases h with h | h <;> simp at h
      · intro _; exact hall
      · intro hc _; exact hnocp hc (Or.inl hpc)
    | taskAppend l t r ht hph =>
      refine ⟨?_, hpend, ?_, ?_, ?_, ?_, ?_, hnocp, htot⟩ <;> dsimp only
      · rw [ht, countHolders_append, countHolders_cons, hph] at hsem
        rw [countHolders_append, countHolders_cons]
        have h1 : (if holdsSlot Phase.running then 1 else 0) = 1 := rfl
        have h2 : (if holdsSlot
            ({ t with phase := Phase.appended (s.completed + 1) } : TaskState Repo).phase
            then 1 else 0) = 1 := rfl
        rw [h1] at hsem
        rw [h2]
        omega
      · rw [ht] at hdisp
        simp only [List.map_append, List.map_cons] at hdisp ⊢
        exact hdisp
      · rw [ht] at hres
        rw [runningRepos_append, runningRepos_cons, hph] at hres
        rw [runningRepos_append, runningRepos_cons]
        simp only [beq_self_eq_true, if_true] at hres
        simp only [List.map_append, List.map_cons] at hres ⊢
        have hco : (Phase.appended (s.completed + 1) == Phase.running) = false := by
          simp
        rw [hco]
        simp only [Bool.false_eq_true, if_false]
        refine List.Perm.trans ?_ hres
        rw [List.append_assoc]
        refine List.Perm.append_left _ ?_
        show List.Perm (t.repo :: (runningRepos l ++ runningRepos r))
          (runningRepos l ++ t.repo :: runningRepos r)
        exact List.perm_middle.symm
      · rw [ht, countRunning_append, countRunning_cons, hph] at hcomp
        rw [countRunning_append, countRunning_cons]
        simp only [beq_self_eq_true, if_true, List.length_append,
          List.length_cons] at hcomp ⊢
        have hco : (Phase.appended (s.completed + 1) == Phase.running) = false := by
          simp
        rw [hco]
        simp only [Bool.false_eq_true, if_false]
        omega
      · rw [ht, appendedCounts_append, appendedCounts_cons, hph] at hobs
        rw [appendedCounts_append, appendedCounts_cons]
        simp only [List.nil_append] at hobs
        simp only [List.singleton_append]
        rw [List.range'_concat 1 s.completed]
        simp only [one_mul]
        rw [Nat.add_comm 1 s.completed]
        have hA : List.Perm (appendedCounts l ++ (s.completed + 1) :: appendedCounts r)
            ((s.completed + 1) :: (appendedCounts l ++ appendedCounts r)) :=
          List.perm_middle
        refine List.Perm.trans (List.Perm.append_left _ hA) ?_
        refine List.Perm.trans List.perm_middle ?_
        refine List.Perm.trans (List.Perm.cons _ hobs) ?_
        exact (List.perm_append_singleton _ _).symm
      · intro hr
        have hmem : t ∈ s.tasks := by
          rw [ht]; exact List.mem_append_right _ (List.mem_cons_self t r)
        have hd := hretd hr t hmem
        rw [hph] at hd
        exact absurd hd (by simp)
    | taskNotify l t r c ht hph =>
      refine ⟨?_, hpend, ?_, ?_, ?_, ?_, ?_, hnocp, htot⟩ <;> dsimp only
      · rw [ht, countHolders_append, countHolders_cons, hph] at hsem
        rw [countHolders_append, countHolders_cons]
        simp only [holdsSlot] at hsem ⊢
        omega
      · rw [ht] at hdisp
        simp only [List.map_append, List.map_cons] at hdisp ⊢
        exact hdisp
      · rw [ht] at hres
        rw [runningRepos_append, runningRepos_cons, hph] at hres
        rw [runningRepos_append, runningRepos_cons]
        simp only [List.map_append, List.map_cons] at hres ⊢
        have hc1 : (Phase.appended c == Phase.running) = false := by simp
        have hc2 : (Phase.notified == Phase.running) = false := by simp
        rw [hc1] at hres
        rw [hc2]
        simpa using hres
      · rw [ht, countRunning_append, countRunning_cons, hph] at hcomp
        rw [countRunning_append, countRunning_cons]
        have hc1 : (Phase.appended c == Phase.running) = false := by simp
        have hc2 : (Phase.notified == Phase.running) = false := by simp
        rw [hc1] at hcomp
        rw [hc2]
        simp only [Bool.false_eq_true, if_false, List.length_append,
          List.length_cons] at hcomp ⊢
        omega
      · rw [ht, appendedCounts_append, appendedCounts_cons, hph] at hobs
        rw [appendedCounts_append, appendedCounts_cons]
        simp only [List.singleton_append] at hobs
        simp only [List.nil_append, List.map_append, List.map_cons, List.map_nil]
        refine List.Perm.trans ?_ hobs
        rw [List.append_assoc, List.singleton_append]
        exact List.Perm.append_left _ List.perm_middle.symm
      · intro hr
        have hmem : t ∈ s.tasks := by
          rw [ht]; exact List.mem_append_right _ (List.mem_cons_self t r)
        have hd := hretd hr t hmem
        rw [hph] at hd
        exact absurd hd (by simp)
    | taskRelease l t r ht hph =>
      refine ⟨?_, hpend, ?_, ?_, ?_, ?_, ?_, hnocp, htot⟩ <;> dsimp only
      · rw [ht, countHolders_append, countHolders_cons, hph] at hsem
        rw [countHolders_append, countHolders_cons]
        have h1 : (if holdsSlot Phase.notified then 1 else 0) = 1 := rfl
        have h2 : (if holdsSlot
            ({ t with phase := Phase.released } : TaskState Repo).phase
            then 1 else 0) = 0 := rfl
        rw [h1] at hsem
        rw [h2]
        omega
      · rw [ht] at hdisp
        simp only [List.map_append, List.map_cons] at hdisp ⊢
        exact hdisp
      · rw [ht] at hres
        rw [runningRepos_append, runningRepos_cons, hph] at hres
        rw [runningRepos_append, runningRepos_cons]
        simp only [List.map_append, List.map_cons] at hres ⊢
        have hc1 : (Phase.notified == Phase.running) = false := by simp
        have hc2 : (Phase.released == Phase.running) = false := by simp
        rw [hc1] at hres
        rw [hc2]
        simpa using hres
      · rw [ht, countRunning_append, countRunning_cons, hph] at hcomp
        rw [countRunning_append, countRunning_cons]
        have hc1 : (Phase.notified == Phase.running) = false := by simp
        have hc2 : (Phase.released == Phase.running) = false := by simp
        rw [hc1] at hcomp
        rw [hc2]
        simp only [Bool.false_eq_true, if_false, List.length_append,
          List.length_cons] at hcomp ⊢
        omega
      · rw [ht, appendedCounts_append, appendedCounts_cons, hph] at hobs
        rw [appendedCounts_append, appendedCounts_cons]
        simpa using hobs
      · intro hr
        have hmem : t ∈ s.tasks := by
          rw [ht]; exact List.mem_append_right _ (List.mem_cons_self t r)
        have hd := hretd hr t hmem
        rw [hph] at hd
        exact absurd hd (by simp)
    | taskDone l t r ht hph =>
      refine ⟨?_, hpend, ?_, ?_, ?_, ?_, ?_, hnocp, htot⟩ <;> dsimp only
      · rw [ht, countHolders_append, countHolders_cons, hph] at hsem
        rw [countHolders_append, countHolders_cons]
        simp only [holdsSlot] at hsem ⊢
        omega
      · rw [ht] at hdisp
        simp only [List.map_append, List.map_cons] at hdisp ⊢
        exact hdisp
      · rw [ht] at hres
        rw [runningRepos_append, runningRepos_cons, hph] at hres
        rw [runningRepos_append, runningRepos_cons]
        simp only [List.map_append, List.map_cons] at hres ⊢
        have hc1 : (Phase.released == Phase.running) = false := by simp
        have hc2 : (Phase.done == Phase.running) = false := by simp
        rw [hc1] at hres
        rw [hc2]
        simpa using hres
      · rw [ht, countRunning_append, countRunning_cons, hph] at hcomp
        rw [countRunning_append, countRunning_cons]
        have hc1 : (Phase.released == Phase.running) = false := by simp
        have hc2 : (Phase.done == Phase.running) = false := by simp
        rw [hc1] at hcomp
        rw [hc2]
        simp only [Bool.false_eq_true, if_false, List.length_append,
          List.length_cons] at hcomp ⊢
        omega
      · rw [ht, appendedCounts_append, appendedCounts_cons, hph] at hobs
        rw [appendedCounts_append, appendedCounts_cons]
        simpa using hobs
      · intro hr
        have hmem : t ∈ s.tasks := by
          rw [ht]; exact List.mem_append_right _ (List.mem_cons_self t r)
        have hd := hretd hr t hmem
        rw [hph] at hd
        exact absurd hd (by simp)
  · subst hcan
    exact ⟨hsem, hpend, hdisp, hres, hcomp, hobs, hretd,
      fun hf => absurd hf (by simp [setCanceled]), htot⟩

theorem inv_reachable {f : Repo → α} {repos : List Repo} {c : Int} {s : RState Repo α}
    (h : Reachable f repos c s) : Inv repos (effConcurrency c) s := by
  induction h with
  | refl => exact inv_init repos c
  | tail _ hstep ih => exact inv_step hstep ih

/-! ### Final-state consequences of the invariant -/

theorem runningRepos_eq_nil {ts : List (TaskState Repo)}
    (h : ∀ t ∈ ts, t.phase = Phase.done) : runningRepos ts = [] := by
  unfold runningRepos
  have hf : List.filter (fun t => t.phase == Phase.running) ts = [] :=
    List.filter_eq_nil_iff.mpr (fun t ht => by rw [h t ht]; simp)
  rw [hf]
  rfl

theorem appendedCounts_eq_nil {ts : List (TaskState Repo)}
    (h : ∀ t ∈ ts, t.phase = Phase.done) : appendedCounts ts = [] := by
  unfold appendedCounts
  exact List.filterMap_eq_nil_iff.mpr (fun t ht => by rw [h t ht])

theorem countRunning_eq_zero {ts : List (TaskState Repo)}
    (h : ∀ t ∈ ts, t.phase = Phase.done) : countRunning ts = 0 := by
  unfold countRunning
  rw [List.filter_eq_nil_iff.mpr (fun t ht => by rw [h t ht]; simp)]
  rfl

theorem returned_results {f : Repo → α} {repos : List Repo} {c : Int}
    {s : RState Repo α} (h : Reachable f repos c s)
    (hret : s.pc = RunnerPC.returned) :
    List.Perm (s.results.map Prod.fst) (s.tasks.map (fun t => t.repo))
    ∧ s.results.length = s.tasks.length := by
  have hi := inv_reachable h
  have hdone := hi.returnedDone hret
  have hres := hi.resultsPerm
  rw [runningRepos_eq_nil hdone, List.append_nil] at hres
  refine ⟨hres, ?_⟩
  have hl := hres.length_eq
  simpa using hl

theorem returned_noCancel_complete {f : Repo → α} {repos : List Repo} {c : Int}
    {s : RState Repo α} (h : Reachable f repos c s)
    (hret : s.pc = RunnerPC.returned) (hnc : s.canceled = false) :
    s.results.length = repos.length
    ∧ List.Perm (s.results.map Prod.fst) repos := by
  have hi := inv_reachable h
  have hpend := hi.noCancelPending hnc (Or.inr hret)
  have hdisp := hi.dispatched
  rw [hpend, List.append_nil] at hdisp
  obtain ⟨hperm, hlen⟩ := returned_results h hret
  rw [hdisp] at hperm
  refine ⟨?_, hperm⟩
  rw [hlen, ← hdisp]
  simp

/-- C3: when the cancellation token is never triggered, a completed run of
the task runner has produced exactly N outcomes for N input repositories,
each matched by repository identity (the outcome keys are a permutation
of the inputs, not a positional correspondence), regardless of how many
invocations of the task function return errors — the per-repository
payload f is arbitrary. -/
theorem runnerCompleteness_claim (repos : List Repo) (c : Int) (f : Repo → α)
    (s : RState Repo α) (h : Reachable f repos c s)
    (hret : s.pc = RunnerPC.returned) (hnc : s.canceled = false) :
    s.results.length = repos.length
    ∧ List.Perm (s.results.map Prod.fst) repos :=
  returned_noCancel_complete h hret hnc

/-- Witness for C3: the empty-input run, executed to completion. -/
theorem runnerCompleteness_claim_witness :
    ({ { initState ([] : List Nat) 1 with
          pc := RunnerPC.waiting } with pc := RunnerPC.returned }
        : RState Nat Unit).results.length = ([] : List Nat).length
    ∧ List.Perm (({ { initState ([] : List Nat) 1 with
          pc := RunnerPC.waiting } with pc := RunnerPC.returned }
        : RState Nat Unit).results.map Prod.fst) [] := by
  have h0 : Relation.ReflTransGen (StepAll (fun _ : Nat => ()))
      (initState [] 1) (initState ([] : List Nat) 1 : RState Nat Unit) :=
    Relation.ReflTransGen.refl
  have h1 := Relation.ReflTransGen.tail h0 (Or.inl (Step.loopExit _ rfl rfl))
  have h2 := Relation.ReflTransGen.tail h1
    (Or.inl (Step.join _ rfl (fun t ht => absurd ht (List.not_mem_nil t))))
  exact runnerCompleteness_claim [] 1 (fun _ => ()) _ h2 rfl rfl

/-- C4: for every concurrency limit C of at least 1, at no reachable
point of a run are more than C invocations of the task function
simultaneously active: each invocation runs between the acquisition of a
gate slot (before the goroutine starts the task function) and its
unconditional deferred release, and the gate accounting bounds the
holders by the capacity C. -/
theorem runnerBounded_claim (repos : List Repo) (c : Int) (f : Repo → α)
    (s : RState Repo α) (hC : 1 ≤ c) (h : Reachable f repos c s) :
    (countRunning s.tasks : Int) ≤ c := by
  have hi := inv_reachable h
  have hsem := hi.sem
  have hrh := countRunning_le_countHolders s.tasks
  have heff : effConcurrency c = c.toNat := by
    unfold effConcurrency
    rw [if_neg (by omega)]
  rw [heff] at hsem
  omega

/-- Witness for C4 at the initial state of a 2-repository run with
concurrency 2. -/
theorem runnerBounded_claim_witness :
    (countRunning (initState ([0, 1] : List Nat) 2 : RState Nat Unit).tasks : Int) ≤ 2 :=
  runnerBounded_claim [0, 1] 2 (fun _ => ()) _ (by decide) Relation.ReflTransGen.refl

/-- C6 (amended): across a complete never-canceled run over N
repositories, the multiset of completedCount values observed by the
progress sink is exactly 1, ..., N — each value exactly once, with no
gaps or duplicates.  The counter increments themselves are serialized and
strictly increasing under the mutex, but onProgress is called after the
mutex is released, so the order in which the sink observes the values is
not guaranteed (see the counterexample). -/
theorem progressMultiset_claim (repos : List Repo) (c : Int) (f : Repo → α)
    (s : RState Repo α) (h : Reachable f repos c s)
    (hret : s.pc = RunnerPC.returned) (hnc : s.canceled = false) :
    List.Perm (s.obs.map (fun o => o.1)) (List.range' 1 repos.length) := by
  have hi := inv_reachable h
  have hdone := hi.returnedDone hret
  have hobs := hi.obsPerm
  rw [appendedCounts_eq_nil hdone, List.append_nil] at hobs
  have hcomp := hi.completedCount
  rw [countRunning_eq_zero hdone] at hcomp
  have hpend := hi.noCancelPending hnc (Or.inr hret)
  have hdisp := hi.dispatched
  rw [hpend, List.append_nil] at hdisp
  have hlen : s.tasks.length = repos.length := by
    rw [← hdisp]; simp
  rw [show s.completed = repos.length by omega] at hobs
  exact hobs

/-- Witness for the amended C6: the empty-input run, executed to
completion, observes exactly the empty sequence. -/
theorem progressMultiset_claim_witness :
    List.Perm ((({ { initState ([] : List Nat) 1 with
          pc := RunnerPC.waiting } with pc := RunnerPC.returned }
        : RState Nat Unit).obs.map (fun o => o.1)))
      (List.range' 1 ([] : List Nat).length) := by
  have h0 : Relation.ReflTransGen (StepAll (fun _ : Nat => ()))
      (initState [] 1) (initState ([] : List Nat) 1 : RState Nat Unit) :=
    Relation.ReflTransGen.refl
  have h1 := Relation.ReflTransGen.tail h0 (Or.inl (Step.loopExit _ rfl rfl))
  have h2 := Relation.ReflTransGen.tail h1
    (Or.inl (Step.join _ rfl (fun t ht => absurd ht (List.not_mem_nil t))))
  exact progressMultiset_claim [] 1 (fun _ => ()) _ h2 rfl rfl

/-- C6 counterexample: a complete, never-canceled 2-repository run in
which the progress sink observes completedCount 2 before completedCount
1.  Both tasks pass through the mutex-protected increment in order, but
the second task calls onProgress before the first does, because the call
happens after the unlock; the claimed in-order observation sequence
1, 2, ..., N is refuted. -/
theorem progressReorder_counterexample :
    ∃ s : RState Nat Unit,
      Reachable (fun _ => ()) [0, 1] 2 s
      ∧ s.pc = RunnerPC.returned
      ∧ s.canceled = false
      ∧ s.obs.map (fun o => o.1) = [2, 1] := by
  have h0 : Relation.ReflTransGen (StepAll (fun _ : Nat => ()))
      (initState [0, 1] 2) (initState ([0, 1] : List Nat) 2 : RState Nat Unit) :=
    Relation.ReflTransGen.refl
  have h1 := Relation.ReflTransGen.tail h0 (Or.inl (Step.checkOk _ 0 [1] rfl rfl rfl))
  have h2 := Relation.ReflTransGen.tail h1 (Or.inl (Step.acquire _ rfl (by decide)))
  have h3 := Relation.ReflTransGen.tail h2 (Or.inl (Step.spawn _ 0 [1] rfl rfl))
  have h4 := Relation.ReflTransGen.tail h3 (Or.inl (Step.checkOk _ 1 [] rfl rfl rfl))
  have h5 := Relation.ReflTransGen.tail h4 (Or.inl (Step.acquire _ rfl (by decide)))
  have h6 := Relation.ReflTransGen.tail h5 (Or.inl (Step.spawn _ 1 [] rfl rfl))
  have h7 := Relation.ReflTransGen.tail h6 (Or.inl (Step.loopExit _ rfl rfl))
  have h8 := Relation.ReflTransGen.tail h7
    (Or.inl (Step.taskAppend _ [] ⟨0, Phase.running⟩ [⟨1, Phase.running⟩] rfl rfl))
  have h9 := Relation.ReflTransGen.tail h8
    (Or.inl (Step.taskAppend _ [⟨0, Phase.appended 1⟩] ⟨1, Phase.running⟩ [] rfl rfl))
  have h10 := Relation.ReflTransGen.tail h9
    (Or.inl (Step.taskNotify _ [⟨0, Phase.appended 1⟩] ⟨1, Phase.appended 2⟩ [] 2 rfl rfl))
  have h11 := Relation.ReflTransGen.tail h10
    (Or.inl (Step.taskNotify _ [] ⟨0, Phase.appended 1⟩ [⟨1, Phase.notified⟩] 1 rfl rfl))
  have h12 := Relation.ReflTransGen.tail h11
    (Or.inl (Step.taskRelease _ [] ⟨0, Phase.notified⟩ [⟨1, Phase.notified⟩] rfl rfl))
  have h13 := Relation.ReflTransGen.tail h12
    (Or.inl (Step.taskRelease _ [⟨0, Phase.released⟩] ⟨1, Phase.notified⟩ [] rfl rfl))
  have h14 := Relation.ReflTransGen.tail h13
    (Or.inl (Step.taskDone _ [] ⟨0, Phase.released⟩ [⟨1, Phase.released⟩] rfl rfl))
  have h15 := Relation.ReflTransGen.tail h14
    (Or.inl (Step.taskDone _ [⟨0, Phase.done⟩] ⟨1, Phase.released⟩ [] rfl rfl))
  have h16 := Relation.ReflTransGen.tail h15 (Or.inl (Step.join _ rfl (by decide)))
  exact ⟨_, h16, rfl, rfl, rfl⟩

/-! ### Cancellation -/

/-- Tasks dispatched so far plus the dispatch the loop may still perform
without re-testing ctx.Err(). -/
def dispatchPotential (s : RState Repo α) : Nat :=
  s.tasks.length + pcPipeline s.pc

theorem canceled_step {f : Repo → α} {s s2 : RState Repo α}
    (hstep : StepAll f s s2) (hc : s.canceled = true) :
    s2.canceled = true
    ∧ s.tasks.length ≤ s2.tasks.length
    ∧ dispatchPotential s2 ≤ dispatchPotential s := by
  rcases hstep with hstep | hcan
  · cases hstep with
    | loopExit hpc hp =>
      refine ⟨hc, Nat.le_refl _, ?_⟩
      unfold dispatchPotential
      dsimp only
      rw [hpc]
      have h1 : pcPipeline RunnerPC.waiting = 0 := rfl
      have h2 : pcPipeline RunnerPC.loopHead = 0 := rfl
      rw [h1, h2]
    | checkOk r rest hpc hp hcf =>
      rw [hc] at hcf
      exact absurd hcf (by simp)
    | checkCancel r rest hpc hp hcf =>
      refine ⟨hc, Nat.le_refl _, ?_⟩
      unfold dispatchPotential
      dsimp only
      rw [hpc]
      have h1 : pcPipeline RunnerPC.waiting = 0 := rfl
      have h2 : pcPipeline RunnerPC.loopHead = 0 := rfl
      rw [h1, h2]
    | acquire hpc hs0 =>
      refine ⟨hc, Nat.le_refl _, ?_⟩
      unfold dispatchPotential
      dsimp only
      rw [hpc]
      have h1 : pcPipeline RunnerPC.slotHeld = 1 := rfl
      have h2 : pcPipeline RunnerPC.passedCheck = 1 := rfl
      rw [h1, h2]
    | spawn r rest hpc hp =>
      refine ⟨hc, ?_, ?_⟩
      · dsimp only
        rw [List.length_append]
        omega
      · unfold dispatchPotential
        dsimp only
        rw [hpc, List.length_append]
        have h1 : pcPipeline RunnerPC.loopHead = 0 := rfl
        have h2 : pcPipeline RunnerPC.slotHeld = 1 := rfl
        rw [h1, h2]
        simp
    | join hpc hall =>
      refine ⟨hc, Nat.le_refl _, ?_⟩
      unfold dispatchPotential
      dsimp only
      rw [hpc]
      have h1 : pcPipeline RunnerPC.returned = 0 := rfl
      have h2 : pcPipeline RunnerPC.waiting = 0 := rfl
      rw [h1, h2]
    | taskAppend l t r ht hph =>
      refine ⟨hc, ?_, ?_⟩
      · dsimp only
        rw [ht]
        simp [List.length_append]
      · unfold dispatchPotential
        dsimp only
        rw [ht]
        simp [List.length_append]
    | taskNotify l t r c2 ht hph =>
      refine ⟨hc, ?_, ?_⟩
      · dsimp only
        rw [ht]
        simp [List.length_append]
      · unfold dispatchPotential
        dsimp only
        rw [ht]
        simp [List.length_append]
    | taskRelease l t r ht hph =>
      refine ⟨hc, ?_, ?_⟩
      · dsimp only
        rw [ht]
        simp [List.length_append]
      · unfold dispatchPotential
        dsimp only
        rw [ht]
        simp [List.length_append]
    | taskDone l t r ht hph =>
      refine ⟨hc, ?_, ?_⟩
      · dsimp only
        rw [ht]
        simp [List.length_append]
      · unfold dispatchPotential
        dsimp only
        rw [ht]
        simp [List.length_append]
  · subst hcan
    exact ⟨rfl, Nat.le_refl _, Nat.le_refl _⟩

theorem canceled_mono {f : Repo → α} {s s2 : RState Repo α}
    (h : Relation.ReflTransGen (StepAll f) s s2) (hc : s.canceled = true) :
    s2.canceled = true
    ∧ s.tasks.length ≤ s2.tasks.length
    ∧ dispatchPotential s2 ≤ dispatchPotential s := by
  induction h with
  | refl => exact ⟨hc, Nat.le_refl _, Nat.le_refl _⟩
  | tail hr hstep ih =>
    obtain ⟨ihc, ihl, ihp⟩ := ih
    obtain ⟨hc2, hl2, hp2⟩ := canceled_step hstep ihc
    exact ⟨hc2, Nat.le_trans ihl hl2, Nat.le_trans hp2 ihp⟩

/-- C8 (amended): once the cancellation flag is set and the dispatching
loop is not in the middle of an already-checked dispatch (its position is
the loop head, wg.Wait, or returned), the runner dispatches no further
tasks, and the outcomes of all already-dispatched tasks — success,
failure, or cancellation error, all covered by the arbitrary payload f —
are still collected and returned after the join barrier.  When the
trigger lands between the loop's ctx.Err() check and the goroutine start,
one additional task can still be dispatched (see the counterexample),
which is the only correction to the claim as stated. -/
theorem cancelDispatch_claim (repos : List Repo) (c : Int) (f : Repo → α)
    (s s2 : RState Repo α) (h : Reachable f repos c s)
    (hcan : s.canceled = true)
    (hpc : s.pc = RunnerPC.loopHead ∨ s.pc = RunnerPC.waiting ∨ s.pc = RunnerPC.returned)
    (h2 : Relation.ReflTransGen (StepAll f) s s2)
    (hret : s2.pc = RunnerPC.returned) :
    s2.tasks.length = s.tasks.length
    ∧ List.Perm (s2.results.map Prod.fst) (s2.tasks.map (fun t => t.repo))
    ∧ s2.results.length = s.tasks.length := by
  obtain ⟨_, hl, hp⟩ := canceled_mono h2 hcan
  have hpp : pcPipeline s.pc = 0 := by
    rcases hpc with h | h | h <;> rw [h] <;> rfl
  unfold dispatchPotential at hp
  rw [hpp] at hp
  have hlen : s2.tasks.length = s.tasks.length := by omega
  have hreach2 : Reachable f repos c s2 := Relation.ReflTransGen.trans h h2
  obtain ⟨hperm, hrlen⟩ := returned_results hreach2 hret
  exact ⟨hlen, hperm, by omega⟩

/-- Witness for the amended C8: the empty-input run canceled right at the
start and then executed to completion. -/
theorem cancelDispatch_claim_witness :
    ({ { setCanceled (initState ([] : List Nat) 1) with
          pc := RunnerPC.waiting } with pc := RunnerPC.returned }
        : RState Nat Unit).tasks.length
      = (setCanceled (initState ([] : List Nat) 1) : RState Nat Unit).tasks.length := by
  have h0 : Relation.ReflTransGen (StepAll (fun _ : Nat => ()))
      (initState [] 1) (initState ([] : List Nat) 1 : RState Nat Unit) :=
    Relation.ReflTransGen.refl
  have h1 := Relation.ReflTransGen.tail h0 (Or.inr rfl)
  have g0 : Relation.ReflTransGen (StepAll (fun _ : Nat => ()))
      (setCanceled (initState [] 1))
      (setCanceled (initState ([] : List Nat) 1) : RState Nat Unit) :=
    Relation.ReflTransGen.refl
  have g1 := Relation.ReflTransGen.tail g0 (Or.inl (Step.loopExit _ rfl rfl))
  have g2 := Relation.ReflTransGen.tail g1
    (Or.inl (Step.join _ rfl (fun t ht => absurd ht (List.not_mem_nil t))))
  exact (cancelDispatch_claim [] 1 (fun _ => ()) _ _ h1 rfl (Or.inl rfl) g2 rfl).1

/-- C8 counterexample: with 2 repositories and concurrency 2, the
cancellation token is triggered when exactly 1 task has been dispatched,
yet the runner afterwards dispatches the second task: the dispatch loop
had already passed its ctx.Err() check for that repository and was
holding a gate slot when the trigger landed.  The claim that no further
tasks are dispatched after the trigger is therefore false as stated. -/
theorem cancelDispatch_counterexample :
    ∃ smid sfin : RState Nat Unit,
      Reachable (fun _ => ()) [0, 1] 2 smid
      ∧ smid.canceled = true
      ∧ smid.tasks.length = 1
      ∧ Relation.ReflTransGen (StepAll (fun _ => ())) smid sfin
      ∧ sfin.pc = RunnerPC.returned
      ∧ sfin.tasks.length = 2 := by
  have h0 : Relation.ReflTransGen (StepAll (fun _ : Nat => ()))
      (initState [0, 1] 2) (initState ([0, 1] : List Nat) 2 : RState Nat Unit) :=
    Relation.ReflTransGen.refl
  have h1 := Relation.ReflTransGen.tail h0 (Or.inl (Step.checkOk _ 0 [1] rfl rfl rfl))
  have h2 := Relation.ReflTransGen.tail h1 (Or.inl (Step.acquire _ rfl (by decide)))
  have h3 := Relation.ReflTransGen.tail h2 (Or.inl (Step.spawn _ 0 [1] rfl rfl))
  have h4 := Relation.ReflTransGen.tail h3 (Or.inl (Step.checkOk _ 1 [] rfl rfl rfl))
  have h5 := Relation.ReflTransGen.tail h4 (Or.inl (Step.acquire _ rfl (by decide)))
  have h6 := Relation.ReflTransGen.tail h5 (Or.inr rfl)
  have g0 : Relation.ReflTransGen (StepAll (fun _ : Nat => ()))
      (⟨[1], [⟨0, Phase.running⟩], [], 0, 0, true, RunnerPC.slotHeld, [], 2⟩
        : RState Nat Unit)
      (⟨[1], [⟨0, Phase.running⟩], [], 0, 0, true, RunnerPC.slotHeld, [], 2⟩
        : RState Nat Unit) :=
    Relation.ReflTransGen.refl
  have g1 := Relation.ReflTransGen.tail g0 (Or.inl (Step.spawn _ 1 [] rfl rfl))
  have g2 := Relation.ReflTransGen.tail g1 (Or.inl (Step.loopExit _ rfl rfl))
  have g3 := Relation.ReflTransGen.tail g2
    (Or.inl (Step.taskAppend _ [] ⟨0, Phase.running⟩ [⟨1, Phase.running⟩] rfl rfl))
  have g4 := Relation.ReflTransGen.tail g3
    (Or.inl (Step.taskAppend _ [⟨0, Phase.appended 1⟩] ⟨1, Phase.running⟩ [] rfl rfl))
  have g5 := Relation.ReflTransGen.tail g4
    (Or.inl (Step.taskNotify _ [] ⟨0, Phase.appended 1⟩ [⟨1, Phase.appended 2⟩] 1 rfl rfl))
  have g6 := Relation.ReflTransGen.tail g5
    (Or.inl (Step.taskNotify _ [⟨0, Phase.notified⟩] ⟨1, Phase.appended 2⟩ [] 2 rfl rfl))
  have g7 := Relation.ReflTransGen.tail g6
    (Or.inl (Step.taskRelease _ [] ⟨0, Phase.notified⟩ [⟨1, Phase.notified⟩] rfl rfl))
  have g8 := Relation.ReflTransGen.tail g7
    (Or.inl (Step.taskRelease _ [⟨0, Phase.released⟩] ⟨1, Phase.notified⟩ [] rfl rfl))
  have g9 := Relation.ReflTransGen.tail g8
    (Or.inl (Step.taskDone _ [] ⟨0, Phase.released⟩ [⟨1, Phase.released⟩] rfl rfl))
  have g10 := Relation.ReflTransGen.tail g9
    (Or.inl (Step.taskDone _ [⟨0, Phase.done⟩] ⟨1, Phase.released⟩ [] rfl rfl))
  have g11 := Relation.ReflTransGen.tail g10 (Or.inl (Step.join _ rfl (by decide)))
  exact ⟨_, _, h6, rfl, rfl, g11, rfl, rfl⟩

/-! ### Progress and the concurrency coercion -/

theorem progress_lemma {f : Repo → α} {repos : List Repo} {c : Int}
    {s : RState Repo α} (h : Reachable f repos c s)
    (hnr : s.pc ≠ RunnerPC.returned) : ∃ s2, Step f s s2 := by
  have hi := inv_reachable h
  cases hpc : s.pc with
  | loopHead =>
    cases hp : s.pending with
    | nil => exact ⟨_, Step.loopExit s hpc hp⟩
    | cons r rest =>
      cases hcanc : s.canceled with
      | false => exact ⟨_, Step.checkOk s r rest hpc hp hcanc⟩
      | true => exact ⟨_, Step.checkCancel s r rest hpc hp hcanc⟩
  | passedCheck =>
    by_cases hs0 : 0 < s.semAvail
    · exact ⟨_, Step.acquire s hpc hs0⟩
    · have hsem := hi.sem
      rw [hpc] at hsem
      have hpcs : pcSlots RunnerPC.passedCheck = 0 := rfl
      rw [hpcs] at hsem
      have hC := one_le_effConcurrency c
      have hpos : 0 < countHolders s.tasks := by omega
      obtain ⟨t, hmem, hhold⟩ : ∃ t ∈ s.tasks, holdsSlot t.phase = true := by
        unfold countHolders at hpos
        cases hft : List.filter (fun t => holdsSlot t.phase) s.tasks with
        | nil => rw [hft] at hpos; simp at hpos
        | cons t ts2 =>
          have hmemf : t ∈ List.filter (fun t => holdsSlot t.phase) s.tasks := by
            rw [hft]; exact List.mem_cons_self t ts2
          have hmf := List.mem_filter.mp hmemf
          exact ⟨t, hmf.1, hmf.2⟩
      obtain ⟨l, r, hlr⟩ := List.append_of_mem hmem
      cases hph : t.phase with
      | running => exact ⟨_, Step.taskAppend s l t r hlr hph⟩
      | appended c2 => exact ⟨_, Step.taskNotify s l t r c2 hlr hph⟩
      | notified => exact ⟨_, Step.taskRelease s l t r hlr hph⟩
      | released => rw [hph] at hhold; exact absurd hhold (by decide)
      | done => rw [hph] at hhold; exact absurd hhold (by decide)
  | slotHeld =>
    have hpne := hi.pendingNe (Or.inr hpc)
    cases hp : s.pending with
    | nil => exact absurd hp hpne
    | cons r rest => exact ⟨_, Step.spawn s r rest hpc hp⟩
  | waiting =>
    by_cases hall : ∀ t ∈ s.tasks, t.phase = Phase.done
    · exact ⟨_, Step.join s hpc hall⟩
    · push_neg at hall
      obtain ⟨t, hmem, hnd⟩ := hall
      obtain ⟨l, r, hlr⟩ := List.append_of_mem hmem
      cases hph : t.phase with
      | running => exact ⟨_, Step.taskAppend s l t r hlr hph⟩
      | appended c2 => exact ⟨_, Step.taskNotify s l t r c2 hlr hph⟩
      | notified => exact ⟨_, Step.taskRelease s l t r hlr hph⟩
      | released => exact ⟨_, Step.taskDone s l t r hlr hph⟩
      | done => exact absurd hph hnd
  | returned => exact absurd hpc hnr

/-- C10: a concurrency argument below 1 is coerced to 1 — the initial
state is literally that of a run with concurrency 1, and the execution
model depends on the argument only through it — and such a run neither
deadlocks (every reachable state that has not returned has an enabled
system step, because the gate capacity is at least 1) nor panics in the
model, runs at most 1 task-function invocation at a time, and a
completed never-canceled run still collects one outcome per input
repository: the same completeness and bounded-concurrency guarantees as
a call with C = 1. -/
theorem concurrencyCoercion_claim (c : Int) (hc : c < 1) :
    (∀ repos : List Repo, (initState repos c : RState Repo α) = initState repos 1)
    ∧ (∀ (repos : List Repo) (f : Repo → α) (s : RState Repo α),
        Reachable f repos c s →
          (s.pc ≠ RunnerPC.returned → ∃ s2, Step f s s2)
          ∧ countRunning s.tasks ≤ 1
          ∧ (s.pc = RunnerPC.returned → s.canceled = false →
              s.results.length = repos.length)) := by
  have heff : effConcurrency c = 1 := by
    unfold effConcurrency
    rw [if_pos hc]
  constructor
  · intro repos
    unfold initState
    rw [heff]
    have h1 : effConcurrency 1 = 1 := rfl
    rw [h1]
  · intro repos f s h
    refine ⟨fun hnr => progress_lemma h hnr, ?_,
      fun hret hnc => (returned_noCancel_complete h hret hnc).1⟩
    have hi := inv_reachable h
    have hsem := hi.sem
    rw [heff] at hsem
    have hrh := countRunning_le_countHolders s.tasks
    omega

/-- Witness for C10 at concurrency 0 on the empty input, at the initial
state. -/
theorem concurrencyCoercion_claim_witness :
    countRunning (initState ([] : List Nat) 0 : RState Nat Unit).tasks ≤ 1 :=
  ((concurrencyCoercion_claim 0 (by decide)).2 [] (fun _ => ())
    (initState [] 0) Relation.ReflTransGen.refl).2.1

end Worker

end Codemium
